import Mathlib

/-!
Verification of the codemarks annotation tracker.

The Rust sources are embedded shallowly: the `Codemark` record and the
`ProjectsDatabase` store mirror `src/main.rs`; the reconciliation loop of
`scan_directory` (src/scan/mod.rs), the single-file replace of
`process_changed_file` (src/watch/mod.rs), the cleanup pass of
`clean_resolved` (src/clean/mod.rs) and the `SetPattern` branch of
`handle_config` (src/config.rs) are translated into pure functions over an
association-list model of the in-memory `HashMap`.  The external regex
engine is embedded concretely for the compiled-in default pattern of
src/main.rs (case-insensitive comment leader, marker word, optional colon,
captured remainder), see `defaultCaptures` below, and abstracted as a
capture function elsewhere.
-/

namespace Codemarks

/-- One matched line (struct `Codemark`, src/main.rs lines 14-21). -/
structure Codemark where
  file : String
  line_number : Nat
  description : String
  resolved : Bool
deriving DecidableEq

/-- The persisted store (struct `ProjectsDatabase`, src/main.rs lines 37-40):
a map from project key to its codemark list, modelled as an association list
standing for the `HashMap`. -/
abbrev ProjectsDatabase := List (String × List Codemark)

/-- The global configuration (struct `CodemarksConfig`, src/main.rs lines 23-27). -/
structure CodemarksConfig where
  annotation_pattern : String
deriving DecidableEq

/-! ## The default pattern matcher

`default_annotation_pattern` (src/main.rs line 43) is the regex
`(?i)(?://|#|<!--|\*)\s*(?:TODO|FIXME|HACK)\s*:?\s*(.*)$`.  Applied to a
single line (no newline inside), leftmost-match semantics reduce to: scan
start positions left to right; at a position consume one comment leader,
greedy whitespace, one marker word case-insensitively, greedy whitespace, an
optional colon, greedy whitespace; group 1 captures the remainder of the
line.  No backtracking can occur because whitespace never starts a marker
word and never is a colon. -/

/-- Membership in the regex class `\s`, restricted to the ASCII range
(space, tab, newline, carriage return, vertical tab, form feed). -/
def isSpaceChar (c : Char) : Bool :=
  c == ' ' || c == '\t' || c == '\n' || c == '\r' || c == Char.ofNat 11 || c == Char.ofNat 12

/-- Consume the literal `pat` (supplied in upper case) case-insensitively. -/
def stripCI : List Char → List Char → Option (List Char)
  | [], cs => some cs
  | _ :: _, [] => none
  | p :: ps, c :: cs => if c.toUpper = p then stripCI ps cs else none

/-- Consume one comment leader: `//`, `#`, `<!--` or `*`. -/
def stripLeader : List Char → Option (List Char)
  | '/' :: '/' :: cs => some cs
  | '#' :: cs => some cs
  | '<' :: '!' :: '-' :: '-' :: cs => some cs
  | '*' :: cs => some cs
  | _ => none

/-- Match the default pattern anchored at the current position, returning the
group-1 capture. -/
def matchAt (cs : List Char) : Option (List Char) := do
  let cs1 ← stripLeader cs
  let cs2 := cs1.dropWhile isSpaceChar
  let cs3 ← (stripCI "TODO".toList cs2).orElse fun _ =>
    (stripCI "FIXME".toList cs2).orElse fun _ => stripCI "HACK".toList cs2
  let cs4 := cs3.dropWhile isSpaceChar
  let cs5 := match cs4 with
    | ':' :: r => r
    | r => r
  pure (cs5.dropWhile isSpaceChar)

/-- Leftmost match: try every start position from the left. -/
def findCapture : List Char → Option (List Char)
  | [] => none
  | c :: cs =>
    match matchAt (c :: cs) with
    | some cap => some cap
    | none => findCapture cs

/-- Embeds `Regex::captures` with the default pattern on one line: the group-1
capture of the leftmost match, if any. -/
def defaultCaptures (line : String) : Option String :=
  (findCapture line.toList).map fun cs => String.mk cs

/-- Embeds `Regex::is_match` with the default pattern: a match exists iff a capture
does, since group 1 is mandatory in the pattern. -/
def defaultIsMatch (line : String) : Bool :=
  (defaultCaptures line).isSome

/-- Rust `str::trim` on the ASCII range: drop whitespace from both ends. -/
def strTrim (s : String) : String :=
  String.mk ((((s.toList.dropWhile isSpaceChar)).reverse.dropWhile isSpaceChar).reverse)

/-! ## Scan-path matching (src/scan/mod.rs lines 58-76) -/

/-- One line of the full-scan walk: match with the default pattern and store
the entire raw line as the description (scan/mod.rs lines 60-62: the pattern
is used only to match). -/
def scanLine (relPath : String) (lineNumber : Nat) (line : String) : Option Codemark :=
  if defaultIsMatch line then
    some { file := relPath, line_number := lineNumber, description := line, resolved := false }
  else none

/-- Fresh codemarks contributed by one file in the full scan; `reader.lines
().enumerate()` is zero-based and `line_number` stores the successor. -/
def scanFileFresh (relPath : String) (lines : List String) : List Codemark :=
  lines.enum.filterMap fun il => scanLine relPath (il.1 + 1) il.2

/-- Fresh codemarks of a whole directory walk, the walk itself abstracted as
a list of (relative path, file lines) pairs. -/
def scanFresh (files : List (String × List String)) : List Codemark :=
  (files.map fun pr => scanFileFresh pr.1 pr.2).flatten

/-! ## The reconciliation engine (src/scan/mod.rs lines 29-33 and 82-98) -/

/-- The identity test of the reconciliation loop (scan/mod.rs lines 86-88):
equality on (file, description). -/
def sameMark (e f : Codemark) : Bool :=
  e.file == f.file && e.description == f.description

/-- The (file, description) key a codemark is identified by. -/
def ckey (c : Codemark) : String × String :=
  (c.file, c.description)

/-- Mark every stored entry resolved before reconciling (scan/mod.rs
lines 29-33). -/
def markAllResolved (existing : List Codemark) : List Codemark :=
  existing.map fun c => { c with resolved := true }

/-- Update in place the first stored entry matching `f` on
(file, description) (scan/mod.rs lines 85-94, with `break` after the first
hit); `none` when no entry matches. -/
def updateFirst (f : Codemark) : List Codemark → Option (List Codemark)
  | [] => none
  | e :: rest =>
    if sameMark e f then
      some ({ e with resolved := false, line_number := f.line_number } :: rest)
    else
      (updateFirst f rest).map fun rest2 => e :: rest2

/-- Fold one fresh codemark into the accumulated list (scan/mod.rs
lines 83-98): update the first match, or push when none matches. -/
def reconcileOne (acc : List Codemark) (f : Codemark) : List Codemark :=
  match updateFirst f acc with
  | some acc2 => acc2
  | none => acc ++ [f]

/-- The reconciliation engine: mark all existing entries resolved, then fold
in every fresh entry in order. -/
def reconcile (existing fresh : List Codemark) : List Codemark :=
  fresh.foldl reconcileOne (markAllResolved existing)

/-! ## The store (HashMap) model -/

/-- Models `HashMap::get` on the association-list store. -/
def alistLookup (db : ProjectsDatabase) (p : String) : Option (List Codemark) :=
  (db.find? fun pr => pr.1 == p).map fun pr => pr.2

/-- Models `HashMap::get_mut` followed by an in-place overwrite of the list stored
at key `p`. -/
def alistUpdate (db : ProjectsDatabase) (p : String) (v : List Codemark) : ProjectsDatabase :=
  db.map fun pr => if pr.1 == p then (pr.1, v) else pr

/-- The codemark list stored for project `p`, empty when absent. -/
def entriesOf (db : ProjectsDatabase) (p : String) : List Codemark :=
  (alistLookup db p).getD []

/-- The store transformation of `scan_directory` (scan/mod.rs lines 29-33
and 82-103): reconcile when the project key exists, insert the raw fresh
list otherwise. -/
def scanReconcile (db : ProjectsDatabase) (p : String) (fresh : List Codemark) :
    ProjectsDatabase :=
  match alistLookup db p with
  | some existing => alistUpdate db p (reconcile existing fresh)
  | none => db ++ [(p, fresh)]

/-- Embeds `scan_directory` (scan/mod.rs lines 13-112) with the directory walk
abstracted into the fresh list: returns the new store and the count of
unresolved entries over the whole store (lines 104-109:
`values().flat_map(..).filter(|c| !c.resolved).count()`). -/
def scan_directory (db : ProjectsDatabase) (p : String) (fresh : List Codemark) :
    ProjectsDatabase × Nat :=
  let db2 := scanReconcile db p fresh
  (db2, ((db2.map fun pr => pr.2).flatten.filter fun c => !c.resolved).length)

/-! ## The watch path (src/watch/mod.rs) -/

/-- One line of `scan_file` (watch/mod.rs lines 19-31), the compiled pattern
abstracted as the capture function of the external regex engine: store the
trimmed group-1 capture as the description. -/
def watchLine (capture : String → Option String) (path : String) (lineNumber : Nat)
    (line : String) : Option Codemark :=
  (capture line).map fun d =>
    { file := path, line_number := lineNumber, description := strTrim d, resolved := false }

/-- Embeds `scan_file` (watch/mod.rs lines 15-34): codemarks of one file, the file
field holding the full changed path. -/
def scan_file (capture : String → Option String) (path : String) (lines : List String) :
    List Codemark :=
  lines.enum.filterMap fun il => watchLine capture path (il.1 + 1) il.2

/-- Embeds `process_changed_file` (watch/mod.rs lines 88-180), non-ephemeral: the
three skip checks (ignored pattern, deleted file, unreadable-as-text file)
are modelled by the flags `ignored`, `fileGone`, `binary`; `lines` is the
file content when readable.  The live path drops the project's entries whose
file equals the changed path and extends with the fresh codemarks. -/
def process_changed_file (capture : String → Option String) (db : ProjectsDatabase)
    (project path : String) (ignored fileGone binary : Bool) (lines : List String) :
    ProjectsDatabase × Nat :=
  if ignored then (db, 0)
  else if fileGone then (db, 0)
  else if binary then (db, 0)
  else
    let cms := scan_file capture path lines
    if cms.isEmpty then
      match alistLookup db project with
      | some pcms => (alistUpdate db project (pcms.filter fun cm => cm.file != path), 0)
      | none => (db, 0)
    else
      let db1 :=
        match alistLookup db project with
        | some pcms => alistUpdate db project (pcms.filter fun cm => cm.file != path)
        | none => db ++ [(project, [])]
      let db2 :=
        match alistLookup db1 project with
        | some pcms => alistUpdate db1 project (pcms ++ cms)
        | none => db1
      (db2, cms.length)

/-! ## Cleanup (src/clean/mod.rs) -/

/-- The project-filter check of `clean_resolved` (clean/mod.rs lines 20-27). -/
def consideredBy (filter : Option String) (name : String) : Bool :=
  match filter with
  | none => true
  | some fl => name == fl

/-- One project's contribution to the cleaned database (clean/mod.rs
lines 18-66): unconsidered projects are kept whole, considered ones keep
only their unresolved entries and are dropped when none remain. -/
def cleanEntry (filter : Option String) (pr : String × List Codemark) :
    Option (String × List Codemark) :=
  if consideredBy filter pr.1 then
    let unresolvedCms := pr.2.filter fun c => !c.resolved
    if unresolvedCms.isEmpty then none else some (pr.1, unresolvedCms)
  else some pr

/-- The value of `total_removed` in clean/mod.rs: entries that cleaning the
considered projects would drop. -/
def totalRemoved (filter : Option String) (db : ProjectsDatabase) : Nat :=
  (db.map fun pr =>
    if consideredBy filter pr.1 then
      pr.2.length - (pr.2.filter fun c => !c.resolved).length
    else 0).sum

/-- Embeds `clean_resolved` (clean/mod.rs lines 5-97) at the store level: on a dry
run, and when nothing would be removed, `save_global_projects` is never
called, so the persisted store is unchanged; otherwise the cleaned database
replaces it. -/
def clean_resolved (dryRun : Bool) (filter : Option String) (db : ProjectsDatabase) :
    ProjectsDatabase :=
  if dryRun then db
  else if totalRemoved filter db == 0 then db
  else db.filterMap (cleanEntry filter)

/-! ## Configuration (src/config.rs) -/

/-- The `SetPattern` branch of `handle_config` (config.rs lines 24-36), the
external regex compiler abstracted as `compile`: on successful compilation
the new pattern is saved, on failure the error is returned and the stored
configuration is left as it was. -/
def handleConfigSetPattern (compile : String → Except String Unit)
    (stored : CodemarksConfig) (pattern : String) : CodemarksConfig × Except String Unit :=
  match compile pattern with
  | Except.ok _ => ({ annotation_pattern := pattern }, Except.ok ())
  | Except.error e => (stored, Except.error e)

/-! ## What the reconciliation loop computes, stated directly

`reconcileSpec` is the closed form the spec describes: each existing entry
refreshed according to its first fresh match, followed by the fresh entries
that matched no existing entry.  It is proved equal to `reconcile` whenever
neither list repeats a (file, description) key. -/

/-- Refresh one existing entry against the fresh set: the first fresh match
revives it and moves its line, no match leaves it resolved. -/
def refreshBy (fresh : List Codemark) (e : Codemark) : Codemark :=
  match fresh.find? fun f => sameMark e f with
  | some f => { e with resolved := false, line_number := f.line_number }
  | none => { e with resolved := true }

/-- Closed form of the reconciliation engine. -/
def reconcileSpec (existing fresh : List Codemark) : List Codemark :=
  (existing.map (refreshBy fresh)) ++
    (fresh.filter fun f => !(existing.any fun e => sameMark e f))

/-- The spec's phrasing of the scan return value: the per-project unresolved
counts summed across every project of the store. -/
def totalUnresolvedSum (db : ProjectsDatabase) : Nat :=
  ((db.map fun pr => (((pr.2.filter fun c => !c.resolved)).length))).sum

/-- The spec's uniqueness invariant: each project's list holds at most one
entry per distinct (file, description) pair. -/
def storeInv (db : ProjectsDatabase) : Prop :=
  ∀ pr ∈ db, ((pr.2.map ckey)).Nodup

/-- Store states reachable from the empty store by the program's mutating
operations: a full directory scan, one watch-mode file event (with the
default pattern), and clean. -/
inductive Reachable : ProjectsDatabase → Prop where
  | init : Reachable []
  | scan (db : ProjectsDatabase) (p : String) (files : List (String × List String)) :
      Reachable db → Reachable (scanReconcile db p (scanFresh files))
  | watch (db : ProjectsDatabase) (project path : String)
      (ignored fileGone binary : Bool) (lines : List String) : Reachable db →
      Reachable (process_changed_file defaultCaptures db project path
        ignored fileGone binary lines).1
  | clean (db : ProjectsDatabase) (dryRun : Bool) (filter : Option String) :
      Reachable db → Reachable (clean_resolved dryRun filter db)

/-- Reachability restricted to steps whose fresh input is itself free of
duplicate (file, description) pairs. -/
inductive ReachableU : ProjectsDatabase → Prop where
  | init : ReachableU []
  | scan (db : ProjectsDatabase) (p : String) (files : List (String × List String)) :
      ReachableU db → (((scanFresh files).map ckey)).Nodup →
      ReachableU (scanReconcile db p (scanFresh files))
  | watch (db : ProjectsDatabase) (project path : String)
      (ignored fileGone binary : Bool) (lines : List String) : ReachableU db →
      (((scan_file defaultCaptures path lines).map ckey)).Nodup →
      ReachableU (process_changed_file defaultCaptures db project path
        ignored fileGone binary lines).1
  | clean (db : ProjectsDatabase) (dryRun : Bool) (filter : Option String) :
      ReachableU db → ReachableU (clean_resolved dryRun filter db)

/-! ## Basic lemmas -/

theorem sameMark_iff {e f : Codemark} : sameMark e f = true ↔ ckey e = ckey f := by
  simp [sameMark, ckey, Prod.ext_iff]

theorem sameMark_eq_false {e f : Codemark} : sameMark e f = false ↔ ckey e ≠ ckey f := by
  rw [ne_eq, ← sameMark_iff]
  cases sameMark e f <;> simp

theorem sameMark_self (c : Codemark) : sameMark c c = true := by
  simp [sameMark]

theorem ckey_refreshBy (fresh : List Codemark) (e : Codemark) :
    ckey (refreshBy fresh e) = ckey e := by
  unfold refreshBy
  split <;> rfl

theorem sameMark_refreshBy (fresh : List Codemark) (e f : Codemark) :
    sameMark (refreshBy fresh e) f = sameMark e f := by
  unfold refreshBy
  split <;> rfl

theorem refreshBy_nil (e : Codemark) : refreshBy [] e = { e with resolved := true } := rfl

theorem refreshBy_append_of_not {e f : Codemark} (fresh : List Codemark)
    (h : sameMark e f = false) : refreshBy (fresh ++ [f]) e = refreshBy fresh e := by
  unfold refreshBy
  rw [List.find?_append]
  cases hfind : fresh.find? fun g => sameMark e g <;> simp [h]

theorem updateFirst_eq_none {f : Codemark} :
    ∀ {l : List Codemark}, updateFirst f l = none ↔ ∀ e ∈ l, sameMark e f = false
  | [] => by simp [updateFirst]
  | e :: rest => by
    by_cases h : sameMark e f = true
    · simp [updateFirst, h]
    · have h' : sameMark e f = false := by
        cases hb : sameMark e f
        · rfl
        · exact absurd hb h
      simp [updateFirst, h', updateFirst_eq_none]

theorem reconcileOne_cons_not {e f : Codemark} (t : List Codemark)
    (h : sameMark e f = false) : reconcileOne (e :: t) f = e :: reconcileOne t f := by
  have hu : updateFirst f (e :: t) = (updateFirst f t).map fun r => e :: r := by
    conv_lhs => rw [updateFirst]
    rw [if_neg (by simp [h])]
  unfold reconcileOne
  rw [hu]
  cases hut : updateFirst f t <;> simp [hut]

theorem reconcileOne_cons_match {e f : Codemark} (t : List Codemark)
    (h : sameMark e f = true) :
    reconcileOne (e :: t) f = { e with resolved := false, line_number := f.line_number } :: t := by
  simp [reconcileOne, updateFirst, h]

theorem reconcileOne_of_no_match {f : Codemark} {l : List Codemark}
    (h : ∀ e ∈ l, sameMark e f = false) : reconcileOne l f = l ++ [f] := by
  simp [reconcileOne, updateFirst_eq_none.mpr h]

/-! ## The characterization of reconcile -/

theorem reconcileOne_map_match (done : List Codemark) (f : Codemark) :
    ∀ (ex rest : List Codemark), (ex.map ckey).Nodup →
      (∀ x ∈ rest, sameMark x f = false) →
      (∀ g ∈ done, ckey g ≠ ckey f) →
      ex.any (fun e => sameMark e f) = true →
      reconcileOne (ex.map (refreshBy done) ++ rest) f =
        ex.map (refreshBy (done ++ [f])) ++ rest
  | [], _, _, _, _, hany => by simp at hany
  | e :: ex, rest, hnd, hrest, hdone, hany => by
    rw [List.map_cons, List.nodup_cons] at hnd
    cases he : sameMark e f with
    | true =>
      have hkey : ckey e = ckey f := sameMark_iff.mp he
      have hfind : (done.find? fun g => sameMark e g) = none := by
        rw [List.find?_eq_none]
        intro g hg hcon
        exact hdone g hg (by rw [← sameMark_iff.mp hcon, ← hkey])
      have hre : refreshBy done e = { e with resolved := true } := by
        unfold refreshBy
        rw [hfind]
      have hre' : refreshBy (done ++ [f]) e =
          { e with resolved := false, line_number := f.line_number } := by
        unfold refreshBy
        rw [List.find?_append, hfind, Option.none_or]
        simp [he]
      have htail : ex.map (refreshBy (done ++ [f])) = ex.map (refreshBy done) := by
        apply List.map_congr_left
        intro e' he'
        apply refreshBy_append_of_not
        rw [sameMark_eq_false]
        intro hc
        exact hnd.1 (by rw [hkey, ← hc]; exact List.mem_map_of_mem ckey he')
      rw [List.map_cons, List.cons_append,
        reconcileOne_cons_match _ (by rw [sameMark_refreshBy]; exact he), hre,
        List.map_cons, List.cons_append, hre', htail]
    | false =>
      have hany' : ex.any (fun e => sameMark e f) = true := by
        rw [List.any_cons, he] at hany
        simpa using hany
      rw [List.map_cons, List.cons_append,
        reconcileOne_cons_not _ (by rw [sameMark_refreshBy]; exact he),
        reconcileOne_map_match done f ex rest hnd.2 hrest hdone hany']
      rw [List.map_cons, List.cons_append, refreshBy_append_of_not done he]

theorem reconcileOne_no_match_spec (done : List Codemark) (f : Codemark)
    (ex rest : List Codemark)
    (hex : ∀ e ∈ ex, sameMark e f = false)
    (hrest : ∀ x ∈ rest, sameMark x f = false) :
    reconcileOne (ex.map (refreshBy done) ++ rest) f =
      ex.map (refreshBy (done ++ [f])) ++ (rest ++ [f]) := by
  rw [reconcileOne_of_no_match, List.append_assoc]
  · congr 1
    apply List.map_congr_left
    intro e' he'
    exact (refreshBy_append_of_not done (hex e' he')).symm
  · intro x hx
    rcases List.mem_append.mp hx with hx | hx
    · obtain ⟨e', he', rfl⟩ := List.mem_map.mp hx
      rw [sameMark_refreshBy]
      exact hex e' he'
    · exact hrest x hx

theorem reconcileOne_spec (existing done : List Codemark) (f : Codemark)
    (hex : (existing.map ckey).Nodup)
    (hdone : ∀ g ∈ done, ckey g ≠ ckey f) :
    reconcileOne (reconcileSpec existing done) f = reconcileSpec existing (done ++ [f]) := by
  have hrest : ∀ x ∈ (done.filter fun g => !(existing.any fun e => sameMark e g)),
      sameMark x f = false := by
    intro x hx
    rw [sameMark_eq_false]
    exact hdone x (List.mem_of_mem_filter hx)
  unfold reconcileSpec
  cases hany : existing.any (fun e => sameMark e f) with
  | true =>
    rw [reconcileOne_map_match done f existing _ hex hrest hdone hany,
      List.filter_append]
    simp [hany]
  | false =>
    have hnom : ∀ e ∈ existing, sameMark e f = false := by
      intro e he
      by_contra hb
      rw [Bool.not_eq_false] at hb
      have hcon : (existing.any fun e => sameMark e f) = true :=
        List.any_eq_true.mpr ⟨e, he, hb⟩
      rw [hany] at hcon
      exact Bool.false_ne_true hcon
    rw [reconcileOne_no_match_spec done f existing _ hnom hrest, List.filter_append]
    simp [hany]

theorem foldl_reconcileOne_spec (existing : List Codemark)
    (hex : (existing.map ckey).Nodup) :
    ∀ (todo done : List Codemark), (((done ++ todo).map ckey)).Nodup →
      List.foldl reconcileOne (reconcileSpec existing done) todo =
        reconcileSpec existing (done ++ todo)
  | [], done, _ => by simp
  | f :: todo, done, hnd => by
    have hdone : ∀ g ∈ done, ckey g ≠ ckey f := by
      rw [List.map_append, List.nodup_append] at hnd
      intro g hg heq
      exact hnd.2.2 (List.mem_map_of_mem ckey hg)
        (by rw [heq]; exact List.mem_map_of_mem ckey (List.mem_cons_self f todo))
    have hnd' : (((done ++ [f]) ++ todo).map ckey).Nodup := by
      rw [List.append_assoc, List.singleton_append]
      exact hnd
    rw [List.foldl_cons, reconcileOne_spec existing done f hex hdone,
      foldl_reconcileOne_spec existing hex todo (done ++ [f]) hnd',
      List.append_assoc, List.singleton_append]

/-- The reconciliation engine computes its closed form whenever neither list
repeats a (file, description) key. -/
theorem reconcile_eq_spec (existing fresh : List Codemark)
    (hex : (existing.map ckey).Nodup) (hfr : (fresh.map ckey).Nodup) :
    reconcile existing fresh = reconcileSpec existing fresh := by
  have h0 : reconcileSpec existing [] = markAllResolved existing := by
    unfold reconcileSpec markAllResolved
    simp [refreshBy_nil]
  rw [reconcile, ← h0,
    foldl_reconcileOne_spec existing hex fresh [] (by simpa using hfr)]
  simp

/-! ## Association-list store lemmas -/

theorem alistLookup_cons (pr : String × List Codemark) (db : ProjectsDatabase) (p : String) :
    alistLookup (pr :: db) p = if pr.1 == p then some pr.2 else alistLookup db p := by
  unfold alistLookup
  rw [List.find?_cons]
  cases h : pr.1 == p <;> simp [h]

theorem alistUpdate_cons (pr : String × List Codemark) (db : ProjectsDatabase) (p : String)
    (v : List Codemark) :
    alistUpdate (pr :: db) p v =
      (if pr.1 == p then (pr.1, v) else pr) :: alistUpdate db p v := rfl

theorem alistLookup_update_self {db : ProjectsDatabase} {p : String}
    (h : (alistLookup db p).isSome) (v : List Codemark) :
    alistLookup (alistUpdate db p v) p = some v := by
  induction db with
  | nil => simp [alistLookup] at h
  | cons pr db ih =>
    rw [alistUpdate_cons]
    by_cases hp : (pr.1 == p) = true
    · rw [if_pos hp, alistLookup_cons]
      simp [hp]
    · rw [if_neg hp, alistLookup_cons, if_neg hp]
      rw [alistLookup_cons, if_neg hp] at h
      exact ih h

theorem alistLookup_update_ne {db : ProjectsDatabase} {p q : String}
    (h : q ≠ p) (v : List Codemark) :
    alistLookup (alistUpdate db p v) q = alistLookup db q := by
  induction db with
  | nil => rfl
  | cons pr db ih =>
    rw [alistUpdate_cons]
    by_cases hp : (pr.1 == p) = true
    · have hp' : pr.1 = p := beq_iff_eq.mp hp
      have hq : (pr.1 == q) = false := by
        rw [beq_eq_false_iff_ne, hp']
        exact fun hc => h hc.symm
      rw [if_pos hp, alistLookup_cons, alistLookup_cons]
      simp only [hq, Bool.false_eq_true, if_false]
      exact ih
    · rw [if_neg hp, alistLookup_cons, alistLookup_cons]
      by_cases hq : (pr.1 == q) = true
      · rw [if_pos hq, if_pos hq]
      · rw [if_neg hq, if_neg hq]
        exact ih

theorem alistUpdate_of_none {db : ProjectsDatabase} {p : String}
    (h : alistLookup db p = none) (v : List Codemark) :
    alistUpdate db p v = db := by
  induction db with
  | nil => rfl
  | cons pr db ih =>
    rw [alistLookup_cons] at h
    by_cases hp : (pr.1 == p) = true
    · rw [if_pos hp] at h
      exact absurd h (by simp)
    · rw [if_neg hp] at h
      rw [alistUpdate_cons, if_neg hp, ih h]

theorem alistLookup_append (db1 db2 : ProjectsDatabase) (p : String) :
    alistLookup (db1 ++ db2) p = (alistLookup db1 p).or (alistLookup db2 p) := by
  unfold alistLookup
  rw [List.find?_append]
  cases List.find? (fun pr => pr.1 == p) db1 <;> simp

theorem alistUpdate_append (db1 db2 : ProjectsDatabase) (p : String) (v : List Codemark) :
    alistUpdate (db1 ++ db2) p v = alistUpdate db1 p v ++ alistUpdate db2 p v := by
  unfold alistUpdate
  rw [List.map_append]

theorem alistUpdate_update (db : ProjectsDatabase) (p : String) (v w : List Codemark) :
    alistUpdate (alistUpdate db p v) p w = alistUpdate db p w := by
  induction db with
  | nil => rfl
  | cons pr db ih =>
    by_cases hp : (pr.1 == p) = true <;>
      simp [alistUpdate_cons, ih, hp]

theorem mem_alistUpdate {db : ProjectsDatabase} {p : String} {v : List Codemark}
    {pr' : String × List Codemark} (h : pr' ∈ alistUpdate db p v) :
    pr' ∈ db ∨ pr'.2 = v := by
  obtain ⟨pr, hpr, heq⟩ := List.mem_map.mp h
  by_cases hp : (pr.1 == p) = true
  · right
    rw [if_pos hp] at heq
    rw [← heq]
  · left
    rw [if_neg hp] at heq
    rw [← heq]
    exact hpr

theorem alistLookup_of_mem_nodup {db : ProjectsDatabase} {p : String} {cms : List Codemark}
    (hnd : (db.map Prod.fst).Nodup) (h : (p, cms) ∈ db) : alistLookup db p = some cms := by
  induction db with
  | nil => simp at h
  | cons pr db ih =>
    rw [List.map_cons, List.nodup_cons] at hnd
    rw [alistLookup_cons]
    rcases List.mem_cons.mp h with h | h
    · rw [← h]
      simp
    · have hne : (pr.1 == p) = false := by
        rw [beq_eq_false_iff_ne]
        intro hc
        exact hnd.1 (by rw [hc]; exact List.mem_map_of_mem Prod.fst h)
      rw [hne]
      simp only [Bool.false_eq_true, if_false]
      exact ih hnd.2 h

/-! ## Key uniqueness is preserved by the reconciliation loop -/

theorem updateFirst_map_ckey {f : Codemark} :
    ∀ {l l' : List Codemark}, updateFirst f l = some l' → l'.map ckey = l.map ckey
  | [], _, h => by simp [updateFirst] at h
  | e :: rest, l', h => by
    by_cases he : sameMark e f = true
    · rw [updateFirst, if_pos he] at h
      rw [← Option.some_inj.mp h]
      rfl
    · rw [updateFirst, if_neg he] at h
      obtain ⟨rest2, hr2, hl'⟩ := Option.map_eq_some'.mp h
      rw [← hl', List.map_cons, List.map_cons, updateFirst_map_ckey hr2]

theorem reconcileOne_ckey_nodup {l : List Codemark} {f : Codemark}
    (h : (l.map ckey).Nodup) : ((reconcileOne l f).map ckey).Nodup := by
  unfold reconcileOne
  cases hu : updateFirst f l with
  | some l2 => rw [updateFirst_map_ckey hu]; exact h
  | none =>
    rw [List.map_append]
    rw [List.nodup_append]
    refine ⟨h, List.nodup_singleton _, ?_⟩
    intro a ha hamem
    obtain ⟨e, he, rfl⟩ := List.mem_map.mp ha
    have : sameMark e f = false := updateFirst_eq_none.mp hu e he
    rw [List.map_singleton, List.mem_singleton] at hamem
    exact sameMark_eq_false.mp this hamem

theorem markAllResolved_map_ckey (l : List Codemark) :
    (markAllResolved l).map ckey = l.map ckey := by
  unfold markAllResolved
  rw [List.map_map]
  apply List.map_congr_left
  intro c _
  rfl

theorem foldl_reconcileOne_ckey_nodup :
    ∀ (fresh : List Codemark) {acc : List Codemark}, (acc.map ckey).Nodup →
      ((List.foldl reconcileOne acc fresh).map ckey).Nodup
  | [], _, h => h
  | f :: fresh, acc, h => by
    rw [List.foldl_cons]
    exact foldl_reconcileOne_ckey_nodup fresh (reconcileOne_ckey_nodup h)

/-- Reconciliation never introduces a duplicate (file, description) key,
whatever the fresh list contains. -/
theorem reconcile_ckey_nodup {existing fresh : List Codemark}
    (hex : (existing.map ckey).Nodup) : ((reconcile existing fresh).map ckey).Nodup := by
  unfold reconcile
  exact foldl_reconcileOne_ckey_nodup fresh (by rw [markAllResolved_map_ckey]; exact hex)

/-! ## Idempotence of reconciliation -/

theorem find?_sameMark_self {fresh : List Codemark} (hfr : (fresh.map ckey).Nodup)
    {f : Codemark} (hf : f ∈ fresh) : (fresh.find? fun g => sameMark f g) = some f := by
  induction fresh with
  | nil => simp at hf
  | cons g fs ih =>
    rw [List.map_cons, List.nodup_cons] at hfr
    rcases List.mem_cons.mp hf with rfl | hf'
    · exact List.find?_cons_of_pos _ (sameMark_self f)
    · have hne : sameMark f g = false := by
        rw [sameMark_eq_false]
        intro hc
        exact hfr.1 (hc ▸ List.mem_map_of_mem ckey hf')
      rw [List.find?_cons_of_neg _ (by simp [hne])]
      exact ih hfr.2 hf'

theorem find?_sameMark_congr {fresh : List Codemark} {e e' : Codemark}
    (h : ckey e' = ckey e) :
    (fresh.find? fun g => sameMark e' g) = fresh.find? fun g => sameMark e g := by
  have hp : (fun g => sameMark e' g) = fun g => sameMark e g := by
    funext g
    cases hb : sameMark e g with
    | true => exact sameMark_iff.mpr (by rw [h]; exact sameMark_iff.mp hb)
    | false =>
      rw [sameMark_eq_false] at hb ⊢
      rw [h]
      exact hb
  rw [hp]

theorem refreshBy_self {fresh : List Codemark} (hfr : (fresh.map ckey).Nodup)
    {f : Codemark} (hf : f ∈ fresh) (hres : f.resolved = false) :
    refreshBy fresh f = f := by
  unfold refreshBy
  rw [find?_sameMark_self hfr hf]
  obtain ⟨fl, ln, d, r⟩ := f
  simp only at hres
  rw [hres]

theorem refreshBy_idem (fresh : List Codemark) (e : Codemark) :
    refreshBy fresh (refreshBy fresh e) = refreshBy fresh e := by
  cases hf : fresh.find? fun g => sameMark e g with
  | some f =>
    have he : refreshBy fresh e = { e with resolved := false, line_number := f.line_number } := by
      unfold refreshBy
      rw [hf]
    rw [he]
    unfold refreshBy
    rw [@find?_sameMark_congr fresh e
      { e with resolved := false, line_number := f.line_number } rfl, hf]
  | none =>
    have he : refreshBy fresh e = { e with resolved := true } := by
      unfold refreshBy
      rw [hf]
    rw [he]
    unfold refreshBy
    rw [@find?_sameMark_congr fresh e { e with resolved := true } rfl, hf]

theorem filterPart_ckey_not_mem {existing fresh : List Codemark} {f : Codemark}
    (hf : f ∈ fresh.filter fun g => !(existing.any fun e => sameMark e g)) :
    ckey f ∉ existing.map ckey := by
  have hpred := List.of_mem_filter hf
  intro hmem
  obtain ⟨e, he, hke⟩ := List.mem_map.mp hmem
  have hsm : sameMark e f = true := sameMark_iff.mpr hke
  have hany : (existing.any fun e => sameMark e f) = true :=
    List.any_eq_true.mpr ⟨e, he, hsm⟩
  simp [hany] at hpred

theorem map_ckey_map_refreshBy (fresh existing : List Codemark) :
    (existing.map (refreshBy fresh)).map ckey = existing.map ckey := by
  rw [List.map_map]
  apply List.map_congr_left
  intro e _
  exact ckey_refreshBy fresh e

theorem reconcileSpec_ckey_nodup {existing fresh : List Codemark}
    (hex : (existing.map ckey).Nodup) (hfr : (fresh.map ckey).Nodup) :
    ((reconcileSpec existing fresh).map ckey).Nodup := by
  unfold reconcileSpec
  rw [List.map_append, List.nodup_append]
  refine ⟨?_, ?_, ?_⟩
  · rw [map_ckey_map_refreshBy]
    exact hex
  · exact List.Nodup.sublist (List.Sublist.map ckey (List.filter_sublist _)) hfr
  · intro a ha hb
    rw [map_ckey_map_refreshBy] at ha
    obtain ⟨f, hfmem, rfl⟩ := List.mem_map.mp hb
    exact filterPart_ckey_not_mem hfmem ha

theorem reconcileSpec_reconcileSpec {existing fresh : List Codemark}
    (hfr : (fresh.map ckey).Nodup) (hres : ∀ f ∈ fresh, f.resolved = false) :
    reconcileSpec (reconcileSpec existing fresh) fresh = reconcileSpec existing fresh := by
  have h1 : ∀ x ∈ reconcileSpec existing fresh, refreshBy fresh x = x := by
    intro x hx
    rcases List.mem_append.mp hx with hx | hx
    · obtain ⟨e, _, rfl⟩ := List.mem_map.mp hx
      exact refreshBy_idem fresh e
    · exact refreshBy_self hfr (List.mem_of_mem_filter hx)
        (hres _ (List.mem_of_mem_filter hx))
  have hmap : (reconcileSpec existing fresh).map (refreshBy fresh) =
      reconcileSpec existing fresh := by
    rw [show (reconcileSpec existing fresh).map (refreshBy fresh) =
      (reconcileSpec existing fresh).map id from List.map_congr_left h1, List.map_id]
  have h2 : (fresh.filter fun f => !((reconcileSpec existing fresh).any
      fun e => sameMark e f)) = [] := by
    rw [List.filter_eq_nil_iff]
    intro f hf hpred
    cases hany : existing.any fun e => sameMark e f with
    | true =>
      obtain ⟨e, he, hse⟩ := List.any_eq_true.mp hany
      have hmem : refreshBy fresh e ∈ reconcileSpec existing fresh :=
        List.mem_append_left _ (List.mem_map_of_mem _ he)
      have hL : ((reconcileSpec existing fresh).any fun e => sameMark e f) = true :=
        List.any_eq_true.mpr ⟨_, hmem, by rw [sameMark_refreshBy]; exact hse⟩
      simp [hL] at hpred
    | false =>
      have hmemf : f ∈ fresh.filter fun g => !(existing.any fun e => sameMark e g) :=
        List.mem_filter.mpr ⟨hf, by simp [hany]⟩
      have hL : ((reconcileSpec existing fresh).any fun e => sameMark e f) = true :=
        List.any_eq_true.mpr ⟨f, List.mem_append_right _ hmemf, sameMark_self f⟩
      simp [hL] at hpred
  conv_lhs => rw [reconcileSpec]
  rw [hmap, h2, List.append_nil]

/-- Reconciling an already-reconciled list against the same fresh set leaves
it unchanged (for duplicate-free inputs). -/
theorem reconcile_idem {existing fresh : List Codemark}
    (hex : (existing.map ckey).Nodup) (hfr : (fresh.map ckey).Nodup)
    (hres : ∀ f ∈ fresh, f.resolved = false) :
    reconcile (reconcile existing fresh) fresh = reconcile existing fresh := by
  rw [reconcile_eq_spec existing fresh hex hfr,
    reconcile_eq_spec _ fresh (reconcileSpec_ckey_nodup hex hfr) hfr]
  exact reconcileSpec_reconcileSpec hfr hres

/-- Reconciling a duplicate-free unresolved list against itself is the
identity: this is what the second scan of a brand-new project computes. -/
theorem reconcile_self {fresh : List Codemark} (hfr : (fresh.map ckey).Nodup)
    (hres : ∀ f ∈ fresh, f.resolved = false) : reconcile fresh fresh = fresh := by
  rw [reconcile_eq_spec fresh fresh hfr hfr]
  unfold reconcileSpec
  have hmap : fresh.map (refreshBy fresh) = fresh := by
    rw [show fresh.map (refreshBy fresh) = fresh.map id from
      List.map_congr_left fun f hf => refreshBy_self hfr hf (hres f hf), List.map_id]
  have hfil : (fresh.filter fun f => !(fresh.any fun e => sameMark e f)) = [] := by
    rw [List.filter_eq_nil_iff]
    intro f hf hpred
    have hany : (fresh.any fun e => sameMark e f) = true :=
      List.any_eq_true.mpr ⟨f, hf, sameMark_self f⟩
    simp [hany] at hpred
  rw [hmap, hfil, List.append_nil]

/-! ## The uniqueness invariant under the store operations -/

theorem alistLookup_some_mem {db : ProjectsDatabase} {p : String} {v : List Codemark}
    (h : alistLookup db p = some v) : ∃ pr ∈ db, pr.2 = v := by
  unfold alistLookup at h
  obtain ⟨pr, hfind, hv⟩ := Option.map_eq_some'.mp h
  exact ⟨pr, List.mem_of_find?_eq_some hfind, hv⟩

theorem storeInv_scanReconcile {db : ProjectsDatabase} {p : String} {fresh : List Codemark}
    (hinv : storeInv db) (hfr : ((fresh.map ckey)).Nodup) :
    storeInv (scanReconcile db p fresh) := by
  unfold scanReconcile
  cases hl : alistLookup db p with
  | some existing =>
    intro pr' hpr'
    rcases mem_alistUpdate hpr' with h | h
    · exact hinv pr' h
    · rw [h]
      obtain ⟨pr, hprdb, hpr2⟩ := alistLookup_some_mem hl
      exact reconcile_ckey_nodup (hpr2 ▸ hinv pr hprdb)
  | none =>
    intro pr' hpr'
    rcases List.mem_append.mp hpr' with h | h
    · exact hinv pr' h
    · rw [List.mem_singleton] at h
      rw [h]
      exact hfr

theorem scan_file_file {capture : String → Option String} {path : String}
    {lines : List String} {c : Codemark} (hc : c ∈ scan_file capture path lines) :
    c.file = path := by
  unfold scan_file at hc
  obtain ⟨il, _, hw⟩ := List.mem_filterMap.mp hc
  unfold watchLine at hw
  obtain ⟨d, _, hc'⟩ := Option.map_eq_some'.mp hw
  rw [← hc']

theorem nodup_filter_append_scanFile {pcms : List Codemark}
    {capture : String → Option String} {path : String} {lines : List String}
    (hpc : ((pcms.map ckey)).Nodup)
    (hcms : (((scan_file capture path lines).map ckey)).Nodup) :
    ((((pcms.filter fun cm => cm.file != path) ++ scan_file capture path lines).map ckey)).Nodup := by
  rw [List.map_append, List.nodup_append]
  refine ⟨List.Nodup.sublist (List.Sublist.map ckey (List.filter_sublist _)) hpc, hcms, ?_⟩
  intro a ha hb
  obtain ⟨c, hc, rfl⟩ := List.mem_map.mp ha
  obtain ⟨c', hc', hkeq⟩ := List.mem_map.mp hb
  have h1 : c.file ≠ path := by
    have := List.of_mem_filter hc
    simpa using this
  have h2 : c'.file = path := scan_file_file hc'
  have h3 : c'.file = c.file := congrArg Prod.fst hkeq
  exact h1 (by rw [← h3, h2])

theorem storeInv_watch {db : ProjectsDatabase} {project path : String}
    {capture : String → Option String} {ignored fileGone binary : Bool}
    {lines : List String} (hinv : storeInv db)
    (hcms : (((scan_file capture path lines).map ckey)).Nodup) :
    storeInv (process_changed_file capture db project path ignored fileGone binary lines).1 := by
  unfold process_changed_file
  cases ignored with
  | true => exact hinv
  | false =>
  cases fileGone with
  | true => exact hinv
  | false =>
  cases binary with
  | true => exact hinv
  | false =>
  simp only [Bool.false_eq_true, if_false]
  by_cases hemp : (scan_file capture path lines).isEmpty = true
  · rw [if_pos hemp]
    cases hl : alistLookup db project with
    | some pcms =>
      intro pr' hpr'
      rcases mem_alistUpdate hpr' with h | h
      · exact hinv pr' h
      · rw [h]
        obtain ⟨pr, hprdb, hpr2⟩ := alistLookup_some_mem hl
        exact List.Nodup.sublist (List.Sublist.map ckey (List.filter_sublist _))
          (hpr2 ▸ hinv pr hprdb)
    | none => exact hinv
  · rw [if_neg hemp]
    cases hl : alistLookup db project with
    | some pcms =>
      have hinv1 : storeInv (alistUpdate db project
          (pcms.filter fun cm => cm.file != path)) := by
        intro pr' hpr'
        rcases mem_alistUpdate hpr' with h | h
        · exact hinv pr' h
        · rw [h]
          obtain ⟨pr, hprdb, hpr2⟩ := alistLookup_some_mem hl
          exact List.Nodup.sublist (List.Sublist.map ckey (List.filter_sublist _))
            (hpr2 ▸ hinv pr hprdb)
      have hl1 : alistLookup (alistUpdate db project
          (pcms.filter fun cm => cm.file != path)) project =
          some (pcms.filter fun cm => cm.file != path) :=
        alistLookup_update_self (by rw [hl]; rfl) _
      rw [hl1]
      intro pr' hpr'
      rcases mem_alistUpdate hpr' with h | h
      · exact hinv1 pr' h
      · rw [h]
        obtain ⟨pr, hprdb, hpr2⟩ := alistLookup_some_mem hl
        exact nodup_filter_append_scanFile (hpr2 ▸ hinv pr hprdb) hcms
    | none =>
      have hl1 : alistLookup (db ++ [(project, [])]) project = some [] := by
        rw [alistLookup_append, hl, Option.none_or, alistLookup_cons]
        simp
      rw [hl1]
      intro pr' hpr'
      rcases mem_alistUpdate hpr' with h | h
      · rcases List.mem_append.mp h with h' | h'
        · exact hinv pr' h'
        · rw [List.mem_singleton] at h'
          rw [h']
          exact List.nodup_nil
      · rw [h]
        simpa using hcms

theorem storeInv_clean {db : ProjectsDatabase} {dryRun : Bool} {filter : Option String}
    (hinv : storeInv db) : storeInv (clean_resolved dryRun filter db) := by
  unfold clean_resolved
  split
  · exact hinv
  split
  · exact hinv
  intro pr' hpr'
  obtain ⟨pr, hpr, hce⟩ := List.mem_filterMap.mp hpr'
  unfold cleanEntry at hce
  by_cases hc : consideredBy filter pr.1 = true
  · rw [if_pos hc] at hce
    by_cases he : ((pr.2.filter fun c => !c.resolved)).isEmpty = true
    · rw [if_pos he] at hce
      exact absurd hce (by simp)
    · rw [if_neg he] at hce
      rw [← Option.some_inj.mp hce]
      exact List.Nodup.sublist (List.Sublist.map ckey (List.filter_sublist _)) (hinv pr hpr)
  · rw [if_neg hc] at hce
    rw [← Option.some_inj.mp hce]
    exact hinv pr hpr

theorem scan_directory_fst (db : ProjectsDatabase) (p : String) (fresh : List Codemark) :
    (scan_directory db p fresh).1 = scanReconcile db p fresh := rfl

/-! ## Claim C1 -/

/-- C1 (amended): when the stored list has at most one entry per
(file, description) key and the fresh scan result repeats no key, then after
reconciliation every stored entry matching a fresh entry on
(file, description) is present unresolved with its line number moved to the
fresh entry's, every stored entry with no fresh match is present resolved
with its line number unchanged, and every fresh entry with no stored match
is appended unresolved.  (The unrestricted claim fails on duplicate keys,
see the counterexample.) -/
theorem scan_reconcile_contract (existing fresh : List Codemark)
    (hex : ((existing.map ckey)).Nodup) (hfr : ((fresh.map ckey)).Nodup)
    (hres : ∀ f ∈ fresh, f.resolved = false) :
    (∀ e ∈ existing, ∀ f ∈ fresh, ckey e = ckey f →
      { e with resolved := false, line_number := f.line_number } ∈ reconcile existing fresh) ∧
    (∀ e ∈ existing, (∀ f ∈ fresh, ckey e ≠ ckey f) →
      { e with resolved := true } ∈ reconcile existing fresh) ∧
    (∀ f ∈ fresh, (∀ e ∈ existing, ckey e ≠ ckey f) →
      f ∈ reconcile existing fresh ∧ f.resolved = false) := by
  rw [reconcile_eq_spec existing fresh hex hfr]
  refine ⟨?_, ?_, ?_⟩
  · intro e he f hf hk
    have hsome : (fresh.find? fun g => sameMark e g).isSome := by
      rw [List.find?_isSome]
      exact ⟨f, hf, sameMark_iff.mpr hk⟩
    obtain ⟨f2, hf2⟩ := Option.isSome_iff_exists.mp hsome
    have hf2mem : f2 ∈ fresh := List.mem_of_find?_eq_some hf2
    have hf2sm : sameMark e f2 = true := List.find?_some hf2
    have hff : f2 = f := List.inj_on_of_nodup_map hfr hf2mem hf
      ((sameMark_iff.mp hf2sm).symm.trans hk)
    have hre : refreshBy fresh e =
        { e with resolved := false, line_number := f.line_number } := by
      unfold refreshBy
      rw [hf2, hff]
    exact List.mem_append_left _ (hre ▸ List.mem_map_of_mem (refreshBy fresh) he)
  · intro e he hnone
    have hfind : (fresh.find? fun g => sameMark e g) = none := by
      rw [List.find?_eq_none]
      intro f hf hsm
      exact hnone f hf (sameMark_iff.mp hsm)
    have hre : refreshBy fresh e = { e with resolved := true } := by
      unfold refreshBy
      rw [hfind]
    exact List.mem_append_left _ (hre ▸ List.mem_map_of_mem (refreshBy fresh) he)
  · intro f hf hnom
    refine ⟨?_, hres f hf⟩
    apply List.mem_append_right
    apply List.mem_filter.mpr
    refine ⟨hf, ?_⟩
    cases hany : existing.any fun e => sameMark e f with
    | false => simp [hany]
    | true =>
      obtain ⟨e, he, hsm⟩ := List.any_eq_true.mp hany
      exact absurd (sameMark_iff.mp hsm) (hnom e he)

theorem scan_reconcile_contract_witness :
    ({ file := "a.rs", line_number := 5, description := "// TODO: x", resolved := false } :
        Codemark) ∈
      reconcile
        [{ file := "a.rs", line_number := 1, description := "// TODO: x", resolved := false },
         { file := "b.rs", line_number := 2, description := "// FIXME: y", resolved := false }]
        [{ file := "a.rs", line_number := 5, description := "// TODO: x", resolved := false },
         { file := "c.rs", line_number := 9, description := "// HACK z", resolved := false }] ∧
    ({ file := "b.rs", line_number := 2, description := "// FIXME: y", resolved := true } :
        Codemark) ∈
      reconcile
        [{ file := "a.rs", line_number := 1, description := "// TODO: x", resolved := false },
         { file := "b.rs", line_number := 2, description := "// FIXME: y", resolved := false }]
        [{ file := "a.rs", line_number := 5, description := "// TODO: x", resolved := false },
         { file := "c.rs", line_number := 9, description := "// HACK z", resolved := false }] ∧
    ({ file := "c.rs", line_number := 9, description := "// HACK z", resolved := false } :
        Codemark) ∈
      reconcile
        [{ file := "a.rs", line_number := 1, description := "// TODO: x", resolved := false },
         { file := "b.rs", line_number := 2, description := "// FIXME: y", resolved := false }]
        [{ file := "a.rs", line_number := 5, description := "// TODO: x", resolved := false },
         { file := "c.rs", line_number := 9, description := "// HACK z", resolved := false }] := by
  obtain ⟨h1, h2, h3⟩ := scan_reconcile_contract
    [{ file := "a.rs", line_number := 1, description := "// TODO: x", resolved := false },
     { file := "b.rs", line_number := 2, description := "// FIXME: y", resolved := false }]
    [{ file := "a.rs", line_number := 5, description := "// TODO: x", resolved := false },
     { file := "c.rs", line_number := 9, description := "// HACK z", resolved := false }]
    (by decide) (by decide) (by decide)
  exact ⟨h1 { file := "a.rs", line_number := 1, description := "// TODO: x", resolved := false }
      (by decide)
      { file := "a.rs", line_number := 5, description := "// TODO: x", resolved := false }
      (by decide) (by decide),
    h2 { file := "b.rs", line_number := 2, description := "// FIXME: y", resolved := false }
      (by decide) (by decide),
    (h3 { file := "c.rs", line_number := 9, description := "// HACK z", resolved := false }
      (by decide) (by decide)).1⟩

/-- C1 counterexample: with a stored list that repeats a (file, description)
key (the program itself can build such a list, see the C2 counterexample),
a stored entry that matches the fresh entry on (file, description) is left
with resolved = true, where the claim demands resolved = false for every
matching stored entry. -/
theorem scan_reconcile_contract_cex :
    ∃ c ∈ entriesOf (scan_directory
      [("p", [{ file := "a.rs", line_number := 1, description := "// TODO: x", resolved := false },
              { file := "a.rs", line_number := 7, description := "// TODO: x", resolved := false }])]
      "p"
      [{ file := "a.rs", line_number := 3, description := "// TODO: x", resolved := false }]).1 "p",
      c.file = "a.rs" ∧ c.description = "// TODO: x" ∧ c.resolved = true := by
  decide

/-! ## Claim C2 -/

/-- C2 (amended): every store state reachable from the empty store by scan,
watch-mode update and clean steps whose fresh inputs are themselves free of
duplicate (file, description) pairs satisfies the uniqueness invariant.
(Unrestricted, the claim fails: the first-scan insert and the watch re-add
push duplicate pairs verbatim, see the counterexample.) -/
theorem store_unique_invariant (db : ProjectsDatabase) (h : ReachableU db) : storeInv db := by
  induction h with
  | init =>
    intro pr hpr
    simp at hpr
  | scan db p files hR hfr ih => exact storeInv_scanReconcile ih hfr
  | watch db project path ignored fileGone binary lines hR hcms ih =>
    exact storeInv_watch ih hcms
  | clean db dryRun filter hR ih => exact storeInv_clean ih

theorem store_unique_invariant_witness :
    storeInv (scanReconcile [] "codemarks" (scanFresh [("a.rs", ["// TODO: x"])])) :=
  store_unique_invariant _
    (ReachableU.scan [] "codemarks" [("a.rs", ["// TODO: x"])] ReachableU.init (by decide))

/-- C2 counterexample: scanning a fresh directory whose one file repeats the
same annotation line twice inserts both occurrences verbatim, so a reachable
store holds two entries with the same (file, description) pair. -/
theorem store_unique_invariant_cex :
    Reachable [("codemarks",
      [{ file := "a.rs", line_number := 1, description := "// TODO: x", resolved := false },
       { file := "a.rs", line_number := 2, description := "// TODO: x", resolved := false }])] ∧
    ¬ storeInv [("codemarks",
      [{ file := "a.rs", line_number := 1, description := "// TODO: x", resolved := false },
       { file := "a.rs", line_number := 2, description := "// TODO: x", resolved := false }])] := by
  constructor
  · have he : scanReconcile [] "codemarks"
        (scanFresh [("a.rs", ["// TODO: x", "// TODO: x"])]) =
        [("codemarks",
          [{ file := "a.rs", line_number := 1, description := "// TODO: x", resolved := false },
           { file := "a.rs", line_number := 2, description := "// TODO: x", resolved := false }])] := by
      decide
    exact he ▸ Reachable.scan [] "codemarks" [("a.rs", ["// TODO: x", "// TODO: x"])]
      Reachable.init
  · intro hinv
    have h2 := hinv _ (List.mem_singleton.mpr rfl)
    revert h2
    decide

/-! ## Claim C3 -/

/-- C3 (amended): when the store satisfies the uniqueness invariant and the
fresh result of the unchanged directory repeats no (file, description) pair,
scanning twice equals scanning once: same store, hence the same unresolved
count.  (Unrestricted, the claim fails on the very first scan of a directory
holding a duplicated annotation line, see the counterexample.) -/
theorem scan_idempotent (db : ProjectsDatabase) (p : String) (fresh : List Codemark)
    (hinv : storeInv db) (hfr : ((fresh.map ckey)).Nodup)
    (hres : ∀ f ∈ fresh, f.resolved = false) :
    scan_directory ((scan_directory db p fresh).1) p fresh = scan_directory db p fresh := by
  have key : scanReconcile (scanReconcile db p fresh) p fresh = scanReconcile db p fresh := by
    cases hl : alistLookup db p with
    | some existing =>
      obtain ⟨pr, hprdb, hpr2⟩ := alistLookup_some_mem hl
      have hex : ((existing.map ckey)).Nodup := hpr2 ▸ hinv pr hprdb
      have h1 : scanReconcile db p fresh = alistUpdate db p (reconcile existing fresh) := by
        unfold scanReconcile
        rw [hl]
      have h2 : alistLookup (alistUpdate db p (reconcile existing fresh)) p =
          some (reconcile existing fresh) :=
        alistLookup_update_self (by rw [hl]; rfl) _
      rw [h1]
      unfold scanReconcile
      rw [h2]
      show alistUpdate (alistUpdate db p (reconcile existing fresh)) p
        (reconcile (reconcile existing fresh) fresh) = alistUpdate db p (reconcile existing fresh)
      rw [reconcile_idem hex hfr hres, alistUpdate_update]
    | none =>
      have h1 : scanReconcile db p fresh = db ++ [(p, fresh)] := by
        unfold scanReconcile
        rw [hl]
      have h2 : alistLookup (db ++ [(p, fresh)]) p = some fresh := by
        rw [alistLookup_append, hl, Option.none_or, alistLookup_cons]
        simp
      rw [h1]
      unfold scanReconcile
      rw [h2]
      show alistUpdate (db ++ [(p, fresh)]) p (reconcile fresh fresh) = db ++ [(p, fresh)]
      rw [reconcile_self hfr hres, alistUpdate_append, alistUpdate_of_none hl]
      simp [alistUpdate_cons, alistUpdate]
  simp only [scan_directory, scan_directory_fst]
  rw [key]

theorem scan_idempotent_witness :
    scan_directory ((scan_directory
        [("p", [{ file := "a.rs", line_number := 1, description := "// TODO: x", resolved := false }])]
        "p"
        [{ file := "a.rs", line_number := 5, description := "// TODO: x", resolved := false }]).1)
      "p"
      [{ file := "a.rs", line_number := 5, description := "// TODO: x", resolved := false }] =
    scan_directory
      [("p", [{ file := "a.rs", line_number := 1, description := "// TODO: x", resolved := false }])]
      "p"
      [{ file := "a.rs", line_number := 5, description := "// TODO: x", resolved := false }] :=
  scan_idempotent _ _ _ (by unfold storeInv; decide) (by decide) (by decide)

/-- C3 counterexample: the first scan of a brand-new project whose file
repeats one annotation line returns 2, the second scan of the unchanged
directory returns 1 — the counts of two consecutive scans differ. -/
theorem scan_idempotent_cex :
    (scan_directory [] "codemarks" (scanFresh [("a.rs", ["// TODO: x", "// TODO: x"])])).2 = 2 ∧
    (scan_directory
      (scan_directory [] "codemarks" (scanFresh [("a.rs", ["// TODO: x", "// TODO: x"])])).1
      "codemarks" (scanFresh [("a.rs", ["// TODO: x", "// TODO: x"])])).2 = 1 := by
  decide

/-! ## Claim C4 -/

theorem natSum_eq_zero : ∀ {l : List Nat}, l.sum = 0 → ∀ x ∈ l, x = 0
  | [], _, x, hx => by simp at hx
  | a :: l, h, x, hx => by
    rw [List.sum_cons] at h
    rcases List.mem_cons.mp hx with rfl | hx'
    · omega
    · exact natSum_eq_zero (by omega) x hx'

theorem filter_eq_self_of_length {p : Codemark → Bool} :
    ∀ {l : List Codemark}, ((l.filter p)).length = l.length → l.filter p = l
  | [], _ => rfl
  | a :: l, h => by
    by_cases ha : p a = true
    · rw [List.filter_cons_of_pos ha] at h ⊢
      rw [List.length_cons, List.length_cons] at h
      rw [filter_eq_self_of_length (Nat.succ_injective h)]
    · rw [List.filter_cons_of_neg (by simpa using ha)] at h
      have hle := List.length_filter_le p l
      rw [List.length_cons] at h
      omega

theorem cleanEntry_key {filter : Option String} {pr v : String × List Codemark}
    (h : cleanEntry filter pr = some v) : v.1 = pr.1 := by
  unfold cleanEntry at h
  by_cases hc : consideredBy filter pr.1 = true
  · rw [if_pos hc] at h
    by_cases he : ((pr.2.filter fun c => !c.resolved)).isEmpty = true
    · rw [if_pos he] at h
      exact absurd h (by simp)
    · rw [if_neg he] at h
      rw [← Option.some_inj.mp h]
  · rw [if_neg hc] at h
    rw [← Option.some_inj.mp h]

theorem alistLookup_filterMap_none {db : ProjectsDatabase} {p : String}
    (h : ∀ pr ∈ db, pr.1 ≠ p) (filter : Option String) :
    alistLookup (db.filterMap (cleanEntry filter)) p = none := by
  induction db with
  | nil => rfl
  | cons pr db ih =>
    rw [List.filterMap_cons]
    cases hce : cleanEntry filter pr with
    | none => exact ih fun q hq => h q (List.mem_cons_of_mem _ hq)
    | some v =>
      rw [alistLookup_cons]
      have hne : (v.1 == p) = false := by
        rw [beq_eq_false_iff_ne, cleanEntry_key hce]
        exact h pr (List.mem_cons_self _ _)
      rw [hne]
      simp only [Bool.false_eq_true, if_false]
      exact ih fun q hq => h q (List.mem_cons_of_mem _ hq)

theorem alistLookup_filterMap {db : ProjectsDatabase} {p : String} {cms : List Codemark}
    (hnd : ((db.map Prod.fst)).Nodup) (h : (p, cms) ∈ db) (filter : Option String) :
    alistLookup (db.filterMap (cleanEntry filter)) p =
      (cleanEntry filter (p, cms)).map fun v => v.2 := by
  induction db with
  | nil => simp at h
  | cons pr db ih =>
    rw [List.map_cons, List.nodup_cons] at hnd
    rcases List.mem_cons.mp h with heq | hmem
    · rw [List.filterMap_cons, ← heq]
      cases hce : cleanEntry filter (p, cms) with
      | none =>
        rw [Option.map_none']
        apply alistLookup_filterMap_none _ filter
        intro q hq hqp
        apply hnd.1
        rw [show pr.1 = p from by rw [← heq]]
        rw [← hqp]
        exact List.mem_map_of_mem Prod.fst hq
      | some v =>
        rw [alistLookup_cons]
        have hv : (v.1 == p) = true := by
          rw [beq_iff_eq, cleanEntry_key hce]
        rw [hv, if_pos rfl, Option.map_some']
    · have hne : pr.1 ≠ p := fun hc =>
        hnd.1 (hc ▸ List.mem_map_of_mem Prod.fst hmem)
      rw [List.filterMap_cons]
      cases hce : cleanEntry filter pr with
      | none => exact ih hnd.2 hmem
      | some v =>
        rw [alistLookup_cons]
        have hvp : (v.1 == p) = false := by
          rw [beq_eq_false_iff_ne, cleanEntry_key hce]
          exact hne
        rw [hvp]
        simp only [Bool.false_eq_true, if_false]
        exact ih hnd.2 hmem

/-- C4: a non-dry-run clean removes exactly the resolved entries from the
projects the filter selects, leaves every unselected project's list intact,
and drops entirely any selected project whose (nonempty) list is fully
resolved. -/
theorem clean_exact (db : ProjectsDatabase) (filter : Option String)
    (hnd : ((db.map Prod.fst)).Nodup) :
    (∀ p cms, (p, cms) ∈ db → consideredBy filter p = true →
      entriesOf (clean_resolved false filter db) p = cms.filter fun c => !c.resolved) ∧
    (∀ p cms, (p, cms) ∈ db → consideredBy filter p = false →
      alistLookup (clean_resolved false filter db) p = some cms) ∧
    (∀ p cms, (p, cms) ∈ db → consideredBy filter p = true → cms ≠ [] →
      (∀ c ∈ cms, c.resolved = true) →
      alistLookup (clean_resolved false filter db) p = none) := by
  by_cases hz : (totalRemoved filter db == 0) = true
  · have hdb : clean_resolved false filter db = db := by
      unfold clean_resolved
      rw [if_neg (by simp), if_pos hz]
    have hzero : ∀ p cms, (p, cms) ∈ db → consideredBy filter p = true →
        cms.filter (fun c => !c.resolved) = cms := by
      intro p cms hpr hc
      have hsum : totalRemoved filter db = 0 := by simpa using hz
      unfold totalRemoved at hsum
      have hterm := natSum_eq_zero hsum _
        (List.mem_map_of_mem (fun pr => if consideredBy filter pr.1 then
          pr.2.length - ((pr.2.filter fun c => !c.resolved)).length else 0) hpr)
      simp only [hc, if_true] at hterm
      have hlen : cms.length ≤ ((cms.filter fun c => !c.resolved)).length :=
        Nat.le_of_sub_eq_zero hterm
      exact filter_eq_self_of_length
        (Nat.le_antisymm (List.length_filter_le _ _) hlen)
    refine ⟨?_, ?_, ?_⟩
    · intro p cms hmem hc
      rw [hdb]
      unfold entriesOf
      rw [alistLookup_of_mem_nodup hnd hmem, hzero p cms hmem hc]
      rfl
    · intro p cms hmem _
      rw [hdb]
      exact alistLookup_of_mem_nodup hnd hmem
    · intro p cms hmem hc hne hres
      exfalso
      have h0 := hzero p cms hmem hc
      have hfil : cms.filter (fun c => !c.resolved) = [] := by
        rw [List.filter_eq_nil_iff]
        intro c hcmem hcc
        rw [hres c hcmem] at hcc
        simp at hcc
      exact hne (by rw [← h0, hfil])
  · have hdb : clean_resolved false filter db = db.filterMap (cleanEntry filter) := by
      unfold clean_resolved
      rw [if_neg (by simp), if_neg hz]
    refine ⟨?_, ?_, ?_⟩
    · intro p cms hmem hc
      rw [hdb]
      unfold entriesOf
      rw [alistLookup_filterMap hnd hmem filter]
      unfold cleanEntry
      rw [if_pos hc]
      by_cases he : ((cms.filter fun c => !c.resolved)).isEmpty = true
      · rw [if_pos he]
        have hnil : cms.filter (fun c => !c.resolved) = [] := by simpa using he
        rw [hnil]
        rfl
      · rw [if_neg he]
        rfl
    · intro p cms hmem hc
      rw [hdb, alistLookup_filterMap hnd hmem filter]
      unfold cleanEntry
      rw [if_neg (by simp [hc])]
      rfl
    · intro p cms hmem hc hne hres
      rw [hdb, alistLookup_filterMap hnd hmem filter]
      unfold cleanEntry
      rw [if_pos hc]
      have hfil : cms.filter (fun c => !c.resolved) = [] := by
        rw [List.filter_eq_nil_iff]
        intro c hcmem hcc
        rw [hres c hcmem] at hcc
        simp at hcc
      rw [if_pos (by simp [hfil])]
      rfl

theorem clean_exact_witness :
    entriesOf (clean_resolved false (some "p")
      [("p", [{ file := "a", line_number := 1, description := "d", resolved := true }]),
       ("q", [{ file := "b", line_number := 2, description := "e", resolved := true }])]) "p" =
      ([{ file := "a", line_number := 1, description := "d", resolved := true }].filter
        fun c => !c.resolved) ∧
    alistLookup (clean_resolved false (some "p")
      [("p", [{ file := "a", line_number := 1, description := "d", resolved := true }]),
       ("q", [{ file := "b", line_number := 2, description := "e", resolved := true }])]) "q" =
      some [{ file := "b", line_number := 2, description := "e", resolved := true }] ∧
    alistLookup (clean_resolved false (some "p")
      [("p", [{ file := "a", line_number := 1, description := "d", resolved := true }]),
       ("q", [{ file := "b", line_number := 2, description := "e", resolved := true }])]) "p" =
      none := by
  obtain ⟨h1, h2, h3⟩ := clean_exact
    [("p", [{ file := "a", line_number := 1, description := "d", resolved := true }]),
     ("q", [{ file := "b", line_number := 2, description := "e", resolved := true }])]
    (some "p") (by decide)
  exact ⟨h1 "p" [{ file := "a", line_number := 1, description := "d", resolved := true }]
      (by decide) (by decide),
    h2 "q" [{ file := "b", line_number := 2, description := "e", resolved := true }]
      (by decide) (by decide),
    h3 "p" [{ file := "a", line_number := 1, description := "d", resolved := true }]
      (by decide) (by decide) (by decide) (by decide)⟩

/-! ## Claim C5 -/

/-- C5 (amended): the matcher applies no false-positive guard — every line
the default pattern matches yields an annotation on the full-scan path,
whatever the captured remainder contains and however long it is. -/
theorem matcher_no_guard (relPath : String) (n : Nat) (line : String)
    (h : defaultIsMatch line = true) :
    scanLine relPath n line =
      some { file := relPath, line_number := n, description := line, resolved := false } := by
  unfold scanLine
  rw [if_pos h]

theorem matcher_no_guard_witness :
    defaultIsMatch "// TODO: (.*)+" = true ∧
    scanLine "src/scan.rs" 3 "// TODO: (.*)+" =
      some { file := "src/scan.rs", line_number := 3, description := "// TODO: (.*)+",
             resolved := false } :=
  ⟨by decide, matcher_no_guard "src/scan.rs" 3 "// TODO: (.*)+" (by decide)⟩

/-- C5 counterexample: a line whose captured remainder consists of raw regex
metacharacters still produces an annotation on both matcher paths, where the
claim demands that the line be discarded as a false positive. -/
theorem matcher_no_guard_cex :
    defaultCaptures "// TODO: (.*)+" = some "(.*)+" ∧
    scanLine "src/scan.rs" 3 "// TODO: (.*)+" ≠ none ∧
    watchLine defaultCaptures "src/scan.rs" 3 "// TODO: (.*)+" ≠ none := by
  decide

/-! ## Claim C6 -/

/-- C6 (amended): the two paths apply different capture policies — for every
line the default pattern matches, the full-scan path stores the entire raw
line as the description while the watch path stores the trimmed group-1
capture. -/
theorem capture_policies (path : String) (n : Nat) (line d : String)
    (h : defaultCaptures line = some d) :
    scanLine path n line =
      some { file := path, line_number := n, description := line, resolved := false } ∧
    watchLine defaultCaptures path n line =
      some { file := path, line_number := n, description := strTrim d, resolved := false } := by
  constructor
  · unfold scanLine defaultIsMatch
    rw [h]
    rfl
  · unfold watchLine
    rw [h]
    rfl

theorem capture_policies_witness :
    scanLine "a.rs" 1 "// TODO: fix" =
      some { file := "a.rs", line_number := 1, description := "// TODO: fix",
             resolved := false } ∧
    watchLine defaultCaptures "a.rs" 1 "// TODO: fix" =
      some { file := "a.rs", line_number := 1, description := strTrim "fix",
             resolved := false } :=
  capture_policies "a.rs" 1 "// TODO: fix" "fix" (by decide)

/-- C6 counterexample: one and the same matched line is stored with
description "// TODO: fix" by the full-scan path but "fix" by the watch
path — the claim's uniform capture policy does not hold. -/
theorem capture_policies_cex :
    ((scanLine "a.rs" 1 "// TODO: fix").map fun c => c.description) =
      some "// TODO: fix" ∧
    ((watchLine defaultCaptures "a.rs" 1 "// TODO: fix").map fun c => c.description) =
      some "fix" ∧
    ("// TODO: fix" : String) ≠ "fix" := by
  decide

/-! ## Claim C7 -/

theorem length_filter_flatten (db : ProjectsDatabase) (p : Codemark → Bool) :
    ((((db.map fun pr => pr.2)).flatten.filter p)).length =
      ((db.map fun pr => (((pr.2.filter p)).length))).sum := by
  induction db with
  | nil => rfl
  | cons pr db ih =>
    rw [List.map_cons, List.flatten_cons, List.filter_append, List.length_append, ih,
      List.map_cons, List.sum_cons]

/-- C7: the value scan_directory returns is the number of unresolved entries
summed across every project of the whole reconciled store, not only the
scanned project's. -/
theorem scan_returns_global_unresolved (db : ProjectsDatabase) (p : String)
    (fresh : List Codemark) :
    (scan_directory db p fresh).2 = totalUnresolvedSum ((scan_directory db p fresh)).1 := by
  unfold totalUnresolvedSum
  rw [scan_directory_fst]
  show (((((scanReconcile db p fresh).map fun pr => pr.2)).flatten.filter
    fun c => !c.resolved)).length = _
  exact length_filter_flatten _ _

/-! ## Claim C8 -/

/-- C8: handle_config with SetPattern errs exactly when the supplied pattern
fails to compile; on failure the stored configuration is untouched, on
success the new pattern is persisted. -/
theorem set_pattern_atomic (compile : String → Except String Unit)
    (stored : CodemarksConfig) (pattern : String) :
    (∀ e, (handleConfigSetPattern compile stored pattern).2 = Except.error e ↔
      compile pattern = Except.error e) ∧
    (∀ e, compile pattern = Except.error e →
      (handleConfigSetPattern compile stored pattern).1 = stored) ∧
    (compile pattern = Except.ok () →
      handleConfigSetPattern compile stored pattern =
        ({ annotation_pattern := pattern }, Except.ok ())) := by
  unfold handleConfigSetPattern
  cases hc : compile pattern with
  | ok u =>
    refine ⟨?_, ?_, ?_⟩
    · intro e
      constructor
      · intro h
        exact absurd h (by simp)
      · intro h
        exact absurd h (by simp)
    · intro e h
      exact absurd h (by simp)
    · intro _
      rfl
  | error e0 =>
    refine ⟨?_, ?_, ?_⟩
    · intro e
      exact Iff.rfl
    · intro e _
      rfl
    · intro h
      exact absurd h (by simp)

theorem set_pattern_atomic_witness :
    (handleConfigSetPattern (fun _ => Except.error "invalid")
      { annotation_pattern := "OLD" } "[").1 = { annotation_pattern := "OLD" } ∧
    handleConfigSetPattern (fun _ => Except.ok ())
      { annotation_pattern := "OLD" } "NEW" =
      ({ annotation_pattern := "NEW" }, Except.ok ()) := by
  obtain ⟨-, hErr, -⟩ := set_pattern_atomic (fun _ => Except.error "invalid")
    { annotation_pattern := "OLD" } "["
  obtain ⟨-, -, hOk⟩ := set_pattern_atomic (fun _ => Except.ok ())
    { annotation_pattern := "OLD" } "NEW"
  exact ⟨hErr "invalid" rfl, hOk rfl⟩

/-! ## Claim C9 -/

/-- C9: a watch-mode file event replaces exactly the project's stored
entries whose file equals the changed path with the file's freshly matched
codemarks and returns their count; ignored, deleted and unreadable (binary)
files are skipped entirely with return 0 and an unchanged store. -/
theorem watch_replace_by_file (capture : String → Option String) (db : ProjectsDatabase)
    (project path : String) (ignored fileGone binary : Bool) (lines : List String) :
    ((ignored = true ∨ fileGone = true ∨ binary = true) →
      process_changed_file capture db project path ignored fileGone binary lines = (db, 0)) ∧
    (ignored = false → fileGone = false → binary = false →
      entriesOf ((process_changed_file capture db project path ignored fileGone binary
          lines)).1 project =
        (((entriesOf db project).filter fun cm => cm.file != path)) ++
          scan_file capture path lines ∧
      ((process_changed_file capture db project path ignored fileGone binary lines)).2 =
        ((scan_file capture path lines)).length) := by
  constructor
  · intro h
    rcases h with rfl | rfl | rfl
    · rfl
    · cases ignored <;> rfl
    · cases ignored <;> cases fileGone <;> rfl
  · intro hig hgone hbin
    subst hig
    subst hgone
    subst hbin
    cases hl : alistLookup db project with
    | some pcms =>
      have hs : (alistLookup db project).isSome := by
        rw [hl]
        rfl
      have h2 := alistLookup_update_self hs (pcms.filter fun cm => cm.file != path)
      by_cases hemp : ((scan_file capture path lines)).isEmpty = true
      · have hnil : scan_file capture path lines = [] := by simpa using hemp
        simp only [process_changed_file, Bool.false_eq_true, if_false, hemp, if_true, hl]
        refine ⟨?_, by rw [hnil]; rfl⟩
        unfold entriesOf
        rw [h2, hl, hnil, List.append_nil]
        rfl
      · simp only [process_changed_file, Bool.false_eq_true, if_false, hemp, hl, h2]
        refine ⟨?_, trivial⟩
        unfold entriesOf
        rw [alistLookup_update_self (by rw [h2]; rfl) _, hl]
        rfl
    | none =>
      have h2 : alistLookup (db ++ [(project, [])]) project = some [] := by
        rw [alistLookup_append, hl, Option.none_or, alistLookup_cons]
        simp
      by_cases hemp : ((scan_file capture path lines)).isEmpty = true
      · have hnil : scan_file capture path lines = [] := by simpa using hemp
        simp only [process_changed_file, Bool.false_eq_true, if_false, hemp, if_true, hl]
        refine ⟨?_, by rw [hnil]; rfl⟩
        unfold entriesOf
        rw [hl, hnil, List.append_nil]
        rfl
      · simp only [process_changed_file, Bool.false_eq_true, if_false, hemp, hl, h2]
        refine ⟨?_, trivial⟩
        unfold entriesOf
        rw [alistLookup_update_self (by rw [h2]; rfl) _, hl]
        rfl

theorem watch_replace_by_file_witness :
    process_changed_file defaultCaptures
      [("p", [{ file := "x.rs", line_number := 1, description := "old", resolved := false },
              { file := "y.rs", line_number := 2, description := "keep", resolved := false }])]
      "p" "x.rs" true false false ["// TODO: new"] =
      ([("p", [{ file := "x.rs", line_number := 1, description := "old", resolved := false },
               { file := "y.rs", line_number := 2, description := "keep", resolved := false }])],
       0) ∧
    entriesOf ((process_changed_file defaultCaptures
      [("p", [{ file := "x.rs", line_number := 1, description := "old", resolved := false },
              { file := "y.rs", line_number := 2, description := "keep", resolved := false }])]
      "p" "x.rs" false false false ["// TODO: new"])).1 "p" =
      ((entriesOf
        [("p", [{ file := "x.rs", line_number := 1, description := "old", resolved := false },
                { file := "y.rs", line_number := 2, description := "keep", resolved := false }])]
        "p").filter fun cm => cm.file != "x.rs") ++
        scan_file defaultCaptures "x.rs" ["// TODO: new"] := by
  obtain ⟨hskip, -⟩ := watch_replace_by_file defaultCaptures
    [("p", [{ file := "x.rs", line_number := 1, description := "old", resolved := false },
            { file := "y.rs", line_number := 2, description := "keep", resolved := false }])]
    "p" "x.rs" true false false ["// TODO: new"]
  obtain ⟨-, hlive⟩ := watch_replace_by_file defaultCaptures
    [("p", [{ file := "x.rs", line_number := 1, description := "old", resolved := false },
            { file := "y.rs", line_number := 2, description := "keep", resolved := false }])]
    "p" "x.rs" false false false ["// TODO: new"]
  exact ⟨hskip (Or.inl rfl), (hlive rfl rfl rfl).1⟩

/-! ## Claim C10 -/

/-- C10: a scan that reconciles project key `p` leaves the stored list of
every other project key untouched — same entries, same order, same fields. -/
theorem scan_frame (db : ProjectsDatabase) (p : String) (fresh : List Codemark)
    (q : String) (h : q ≠ p) :
    alistLookup ((scan_directory db p fresh)).1 q = alistLookup db q := by
  rw [scan_directory_fst]
  unfold scanReconcile
  cases hl : alistLookup db p with
  | some existing =>
    exact alistLookup_update_ne h _
  | none =>
    show alistLookup (db ++ [(p, fresh)]) q = alistLookup db q
    rw [alistLookup_append, alistLookup_cons]
    have hpq : (p == q) = false := by
      rw [beq_eq_false_iff_ne]
      exact fun hc => h hc.symm
    simp [hpq, alistLookup]

theorem scan_frame_witness :
    alistLookup ((scan_directory
      [("q", [{ file := "a.rs", line_number := 1, description := "// TODO: x",
                resolved := false }])]
      "p" [{ file := "b.rs", line_number := 2, description := "// FIXME: y",
             resolved := false }])).1 "q" =
    alistLookup
      [("q", [{ file := "a.rs", line_number := 1, description := "// TODO: x",
                resolved := false }])] "q" :=
  scan_frame _ "p" _ "q" (by decide)

end Codemarks
